import Mathlib

/-!
Shallow embedding of `word_generator.py` (Synthetic-Word-Generator).

Python dictionaries are modelled as association lists with Python's
insertion-order semantics: a lookup returns the first matching key, an
assignment updates an existing key in place and appends a fresh key at the
end.  Strings are modelled as `List Char`.  The floating point numbers
produced by `** 0.5` are modelled as exact reals (`Real.sqrt`).  The random
source consumed by `random.choices` is modelled as a stream of reals,
one per draw, and the selection logic mirrors `bisect` over cumulative
weights.  `None`-returning failure is modelled by `Option`; uncaught
exceptions and fuel exhaustion of the (possibly non-terminating) sampling
loops are modelled by `Except GenErr`.
-/

namespace WordGen

/-- Python `d[k]` / `k in d`: first entry whose key matches. -/
def dlookup {α β : Type} [DecidableEq α] : List (α × β) → α → Option β
  | [], _ => none
  | (k, v) :: rest, q => if q = k then some v else dlookup rest q

/-- Python `d[k] = v`: update in place when the key exists, append otherwise. -/
def dupdate {α β : Type} [DecidableEq α] : List (α × β) → α → β → List (α × β)
  | [], k, v => [(k, v)]
  | (k0, v0) :: rest, k, v =>
      if k = k0 then (k0, v) :: rest else (k0, v0) :: dupdate rest k v

/-- The `if k not in d: d[k] = 0` / `d[k] += 1` counting idiom. -/
def dbump {α : Type} [DecidableEq α] (d : List (α × ℕ)) (k : α) : List (α × ℕ) :=
  match dlookup d k with
  | none => dupdate d k 1
  | some v => dupdate d k (v + 1)

/-- `INITIATOR = '#'` -/
def INITIATOR : Char := '#'

/-- `TERMINATOR = '$'` -/
def TERMINATOR : Char := '$'

/-- The external Unicode collaborators used by `parse_words`:
`unicodedata.normalize('NFKD', ·)`, `str.lower`, `unicodedata.category`. -/
structure Uni where
  nfkd : List Char → List Char
  lower : List Char → List Char
  cat : Char → List Char

/-- The `UNICODE_FIXES` translation table: both curly single quotation
marks become an apostrophe. -/
def fixQuote (c : Char) : Char :=
  if c = '‘' ∨ c = '’' then '\'' else c

/-- State machine for `re.sub(r'-{2,}', ' ', text)`: `pend` is the length
of the pending hyphen run (capped at two, since only "one" versus "two or
more" matters); a maximal run of two or more hyphens flushes as a single
space, a lone hyphen flushes as itself. -/
def chAux : ℕ → List Char → List Char
  | 0, [] => []
  | 1, [] => ['-']
  | _ + 2, [] => [' ']
  | pend, c :: rest =>
      if c = '-' then chAux (min (pend + 1) 2) rest
      else
        (match pend with
         | 0 => []
         | 1 => ['-']
         | _ + 2 => [' ']) ++ (c :: chAux 0 rest)

/-- `re.sub(r'-{2,}', ' ', text)`: every maximal run of two or more
hyphens becomes a single space. -/
def collapseHyphens (l : List Char) : List Char := chAux 0 l

/-- The keep test of the character filter: letters of any script
(category starting with `L`), combining marks (`Mn`), and the two
characters `'` and `-`.  Category strings are `List Char` like every
other Python string in this embedding. -/
def keepChar (cat : Char → List Char) (c : Char) : Bool :=
  (match cat c with
   | x :: _ => x = 'L'
   | [] => false) || cat c == ['M', 'n'] || c == '\'' || c == '-'

/-- Helper for `str.split()`: accumulates the current token reversed. -/
def splitAux : List Char → List Char → List (List Char)
  | [], acc => if acc.isEmpty then [] else [acc.reverse]
  | c :: rest, acc =>
      if c = ' ' then
        if acc.isEmpty then splitAux rest [] else acc.reverse :: splitAux rest []
      else splitAux rest (c :: acc)

/-- `text.split()` on the filtered text (whose only whitespace is `' '`). -/
def splitOnSpace (l : List Char) : List (List Char) := splitAux l []

/-- `list(set(xs))`, modelled with the deterministic first-occurrence
order (a fixed hash seed): each element is inserted once, repeats are
dropped. -/
def pyDedup {α : Type} [DecidableEq α] (l : List α) : List α :=
  l.foldl (fun acc x => if x ∈ acc then acc else acc ++ [x]) []

/-- Python `s.strip(bad)`: drop every leading and trailing character
that belongs to `bad`. -/
def pyStrip (cs : List Char) (bad : List Char) : List Char :=
  ((cs.dropWhile (fun c => decide (c ∈ bad))).reverse.dropWhile
      (fun c => decide (c ∈ bad))).reverse

/-- `parse_words(text)` for context length `n`.  `none` models returning
`None` (the `text is None` branch; the `except` branch cannot fire in the
embedded pure pipeline). -/
def parse_words (u : Uni) (n : ℕ) (text : Option (List Char)) :
    Option (List (List Char)) :=
  match text with
  | none => none
  | some t0 =>
      let t1 := u.lower (u.nfkd t0)
      let t2 := t1.map fixQuote
      let t3 := collapseHyphens t2
      let t4 := t3.map (fun c => if keepChar u.cat c then c else ' ')
      let raw := pyDedup (splitOnSpace t4)
      let wl := (raw.map (fun w => pyStrip w ['-'])).filter (fun w => n < w.length)
      some (pyDedup wl)

/-- Python `s[-n:]` (note `s[-0:]` is the whole string). -/
def lastChars (n : ℕ) (s : List Char) : List Char :=
  if n = 0 then s else s.drop (s.length - n)

/-- The (context, letter) pairs scanned by the inner loop of
`build_model`, carrying the prefix read so far. -/
def transAux (n : ℕ) : List Char → List Char → List (List Char × Char)
  | _, [] => []
  | pre, c :: rest => (lastChars n pre, c) :: transAux n (pre ++ [c]) rest

/-- All pairs `(word[:i][-n:], word[i])` for `i = 1 .. len(word)-1`. -/
def transitions (n : ℕ) : List Char → List (List Char × Char)
  | [] => []
  | c :: rest => transAux n [c] rest

/-- `INITIATOR + word + TERMINATOR` -/
def boundedW (w : List Char) : List Char := INITIATOR :: (w ++ [TERMINATOR])

/-- The chain model: context string → (next character → count). -/
abbrev Model := List (List Char × List (Char × ℕ))

/-- One increment of `model[context][letter]`, creating the nested
entries lazily. -/
def bump (m : Model) (ctx : List Char) (c : Char) : Model :=
  match dlookup m ctx with
  | none => dupdate m ctx (dbump [] c)
  | some w => dupdate m ctx (dbump w c)

/-- The per-word loop of `build_model`. -/
def addWord (n : ℕ) (m : Model) (w : List Char) : Model :=
  (transitions n (boundedW w)).foldl (fun acc p => bump acc p.1 p.2) m

/-- `build_model(wordlist)` for context length `n`. -/
def build_model (n : ℕ) (wl : List (List Char)) : Model :=
  wl.foldl (addWord n) []

/-- Model of the external `unicodedata.category` collaborator on the
ASCII range (every character outside the handled classes reports a
punctuation-like category, which the filter discards). -/
def asciiCat (c : Char) : List Char :=
  if 'a' ≤ c ∧ c ≤ 'z' then ['L', 'l']
  else if 'A' ≤ c ∧ c ≤ 'Z' then ['L', 'u']
  else if '0' ≤ c ∧ c ≤ '9' then ['N', 'd']
  else if c = ' ' then ['Z', 's']
  else ['P', 'o']

/-- `str.lower` on ASCII text. -/
def asciiLower (t : List Char) : List Char := t.map Char.toLower

/-- NFKD normalization is the identity on ASCII text. -/
def asciiNorm (t : List Char) : List Char := t

/-- The Unicode collaborators restricted to ASCII input. -/
def asciiUni : Uni := ⟨asciiNorm, asciiLower, asciiCat⟩

/-- `max(d.keys())` over the length histogram (the caller guards
non-emptiness; on an empty histogram Python raises instead). -/
def maxKey (d : List (ℕ × ℕ)) : ℕ :=
  (d.map Prod.fst).foldl max 0

/-- One `cumulative.append(...)` step: the previous running value plus
`(distribution[i] / sum(distribution.values())) ** 0.5` when length `i`
was observed, and plus nothing otherwise. -/
noncomputable def cumulStep (histo : List (ℕ × ℕ)) (total : ℕ) (acc : List ℝ)
    (i : ℕ) : List ℝ :=
  acc ++ [acc.getLastD 0 +
    match dlookup histo i with
    | some k => Real.sqrt ((k : ℝ) / (total : ℝ))
    | none => 0]

/-- The `cumulative` list after the loop has run for `i = 1 .. k`. -/
noncomputable def cumulList (histo : List (ℕ × ℕ)) (total : ℕ) : ℕ → List ℝ
  | 0 => [0]
  | k + 1 => cumulStep histo total (cumulList histo total k) (k + 1)

/-- `length_distribution(wordlist)`.  `none` models the uncaught
`ValueError` that `max()` raises on an empty histogram.  (The
`sorted(...)` reordering of the histogram is dropped: it only changes
dictionary iteration order, never a lookup.) -/
noncomputable def length_distribution (wl : List (List Char)) :
    Option (List ℝ) :=
  let histo := wl.foldl (fun d w => dbump d w.length) []
  if histo.isEmpty then none
  else some (cumulList histo ((histo.map Prod.snd).sum) (maxKey histo))

/-- How a run of the sampling loops can fail to return a word list:
`fuel` is the embedding's fuel exhaustion artifact for the two unbounded
`while` loops; the other constructors model uncaught Python exceptions
(`KeyError` on a missing context, `IndexError` on `distribution[-1]` of
an empty list, `ValueError` from `random.choices` on a non-positive
weight total, `ValueError` from `max()` on an empty histogram). -/
inductive GenErr where
  | fuel
  | missingCtx
  | idxErr
  | zeroTotal
  | emptyMax
  deriving DecidableEq

/-- The terminator-boost step of `generate_word`: when the terminator is
among the candidates, the weights dictionary is copied and the copy's
terminator count is multiplied by `distribution[len(word)]`, falling back
to `distribution[-1]` when `len(word)` is out of range.  All weights turn
into reals (Python would mix ints with one float). -/
noncomputable def boostTerm (w : List (Char × ℕ)) (dist : List ℝ)
    (wlen : ℕ) : Option (List (Char × ℝ)) :=
  let wr := w.map (fun p => (p.1, (p.2 : ℝ)))
  match dlookup wr TERMINATOR with
  | none => some wr
  | some v =>
      if wlen < dist.length then
        some (dupdate wr TERMINATOR (v * dist.getD wlen 0))
      else
        match dist.getLast? with
        | none => none
        | some d => some (dupdate wr TERMINATOR (v * d))

/-- The index selection of `random.choices(keys, values)[0]`: one
uniform draw `u`, scaled by the weight total and located by bisection
over cumulative weights (equivalently, subtract-and-compare); the final
entry is the fallback of `bisect`'s capped upper bound. -/
noncomputable def pickFrom : List (Char × ℝ) → ℝ → Option Char
  | [], _ => none
  | [(c, _)], _ => some c
  | (c, w) :: e :: rest, x => if x < w then some c else pickFrom (e :: rest) (x - w)

/-- `random.choices(list(weights.keys()), list(weights.values()))[0]`,
which raises `ValueError` when the weight total is not positive. -/
noncomputable def pyChoices (entries : List (Char × ℝ)) (u : ℝ) : Option Char :=
  if (entries.map Prod.snd).sum ≤ 0 then none
  else pickFrom entries (u * (entries.map Prod.snd).sum)

/-- The `while word[-1] != TERMINATOR` loop of `generate_word`, with the
model threaded through so that mutation (if any) would be observable:
the boost is applied to a copy, so the recursive call receives the model
unchanged.  `rs` is the stream of uniform draws, `ridx` the index of the
next draw. -/
noncomputable def genWordLoop (n : ℕ) (dist : List ℝ) (rs : ℕ → ℝ) :
    ℕ → Model → ℕ → List Char → Except GenErr (List Char × Model × ℕ)
  | 0, _, _, _ => .error .fuel
  | fuel + 1, m, ridx, word =>
      if word.getLastD ' ' ≠ TERMINATOR then
        match dlookup m (lastChars n word) with
        | none => .error .missingCtx
        | some wts =>
            match boostTerm wts dist word.length with
            | none => .error .idxErr
            | some bw =>
                match pyChoices bw (rs ridx) with
                | none => .error .zeroTotal
                | some c => genWordLoop n dist rs fuel m (ridx + 1) (word ++ [c])
      else .ok (word, m, ridx)

/-- `generate_word(model, distribution)`: run the loop from the lone
initiator, then strip the sentinels. -/
noncomputable def generate_word (n : ℕ) (dist : List ℝ) (rs : ℕ → ℝ)
    (fuel : ℕ) (m : Model) (ridx : ℕ) :
    Except GenErr (List Char × Model × ℕ) :=
  match genWordLoop n dist rs fuel m ridx [INITIATOR] with
  | .ok (w, m2, r) => .ok (pyStrip w [INITIATOR, TERMINATOR], m2, r)
  | .error e => .error e

/-- The model component left behind by a `generate_word` call (the model
itself when the call did not return normally, matching the unexceptional
Python dictionary). -/
noncomputable def modelAfter (r : Except GenErr (List Char × Model × ℕ))
    (m : Model) : Model :=
  match r with
  | .ok (_, m2, _) => m2
  | .error _ => m

/-- The `while len(generated) < count` acceptance loop of
`generate_words`: draw a candidate with `generate_word`, discard it when
it collides with the word set or with an earlier accepted word, append
it otherwise.  `fIn` is the fuel given to each inner word generation,
`fOut` bounds the number of outer attempts. -/
noncomputable def genOuter (n : ℕ) (dist : List ℝ) (wl : List (List Char))
    (rs : ℕ → ℝ) (fIn : ℕ) :
    ℕ → Model → ℕ → ℕ → List (List Char) →
      Except GenErr (List (List Char) × Model)
  | fOut, m, ridx, count, acc =>
      if acc.length < count then
        match fOut with
        | 0 => .error .fuel
        | f + 1 =>
            match generate_word n dist rs fIn m ridx with
            | .error e => .error e
            | .ok (w, m2, r2) =>
                if w ∈ wl ∨ w ∈ acc then
                  genOuter n dist wl rs fIn f m2 r2 count acc
                else
                  genOuter n dist wl rs fIn f m2 r2 count (acc ++ [w])
      else .ok (acc, m)

/-- `generate_words(text, count)` for context length `n`: parse, build
the model, derive the distribution, then run the acceptance loop.
`.ok none` models returning `None` after a parse failure; the JSON dump
of the model is I/O and is dropped. -/
noncomputable def generate_words (u : Uni) (n : ℕ) (text : Option (List Char))
    (count : ℕ) (rs : ℕ → ℝ) (fIn fOut : ℕ) :
    Except GenErr (Option (List (List Char))) :=
  match parse_words u n text with
  | none => .ok none
  | some wl =>
      match length_distribution wl with
      | none => .error .emptyMax
      | some dist =>
          match genOuter n dist wl rs fIn fOut (build_model n wl) 0 count [] with
          | .ok (l, _) => .ok (some l)
          | .error e => .error e

/-- True suffix of length `k` (unlike `lastChars`, gives `[]` at `k = 0`). -/
def sfx (k : ℕ) (s : List Char) : List Char := s.drop (s.length - k)

/-- The model has an entry for `ctx` whose inner dictionary has an entry
for `c`. -/
abbrev hasPair (m : Model) (ctx : List Char) (c : Char) : Prop :=
  ∃ w, dlookup m ctx = some w ∧ (dlookup w c).isSome

/-- The in-progress string's context window coincides with the context
window of some prefix of a bounded vocabulary word (the prefix being
neither empty nor the whole bounded word). -/
abbrev ReachCtx (n : ℕ) (wl : List (List Char)) (word : List Char) : Prop :=
  ∃ w ∈ wl, ∃ i, 1 ≤ i ∧ i < (boundedW w).length ∧
    lastChars n word = lastChars n ((boundedW w).take i)

/-- No sentinel character occurs in the list. -/
abbrev noSent (l : List Char) : Prop :=
  ∀ c ∈ l, c ≠ INITIATOR ∧ c ≠ TERMINATOR

/-- Invariant of the per-word sampling loop: the in-progress string is
the initiator followed by sentinel-free letters, optionally closed by a
single terminator (in which case at least one letter was drawn). -/
abbrev GoodProgress (word : List Char) : Prop :=
  (∃ mid, word = INITIATOR :: mid ∧ noSent mid) ∨
  (∃ mid, mid ≠ [] ∧ word = INITIATOR :: (mid ++ [TERMINATOR]) ∧ noSent mid)

/-- The text of the specification's worked example. -/
def catText : List Char :=
  ['c','a','t',' ','c','a','t','s',' ','d','o','g',' ','d','o','g','s']

/-- A two-word corpus whose model admits the novel word "pine". -/
def pmText : List Char := ['p','i','n','t',' ','m','i','n','e']

/-- The two words of `pmText`. -/
def pintW : List Char := ['p','i','n','t']

/-- The second word of `pmText`. -/
def mineW : List Char := ['m','i','n','e']

/-- The novel word that the `pmText` model can generate. -/
def pineW : List Char := ['p','i','n','e']

/-- The chain model that `build_model 2 [pintW, mineW]` produces. -/
def modelPM : Model :=
  [(['#'], [('p', 1), ('m', 1)]),
   (['#', 'p'], [('i', 1)]),
   (['p', 'i'], [('n', 1)]),
   (['i', 'n'], [('t', 1), ('e', 1)]),
   (['n', 't'], [('$', 1)]),
   (['#', 'm'], [('i', 1)]),
   (['m', 'i'], [('n', 1)]),
   (['n', 'e'], [('$', 1)])]

/-- The length distribution of `[pintW, mineW]`: both words have length
4, so the single flattened increment is `sqrt(2/2) = 1` at index 4. -/
def distPM : List ℝ := [0, 0, 0, 0, 1]

/-- A draw stream that generates "pine" from the `pmText` model: the
fourth draw selects the crossover letter at context "in", every other
draw selects the first candidate. -/
noncomputable def rsPine : ℕ → ℝ := fun i => if i = 3 then 3 / 4 else 0

/-- The all-zero draw stream. -/
def rsZero : ℕ → ℝ := fun _ => 0

theorem dlookup_dupdate {α β : Type} [DecidableEq α] (d : List (α × β))
    (k q : α) (v : β) :
    dlookup (dupdate d k v) q = if q = k then some v else dlookup d q := by
  induction d with
  | nil => simp [dupdate, dlookup]
  | cons p rest ih =>
      obtain ⟨k0, v0⟩ := p
      simp only [dupdate]
      by_cases hk : k = k0
      · subst hk
        simp only [if_pos rfl, dlookup]
        by_cases hq : q = k <;> simp [hq]
      · rw [if_neg hk]
        simp only [dlookup, ih]
        by_cases hq : q = k0
        · have hqk : ¬(q = k) := by
            rw [hq]; exact fun h => hk h.symm
          have hk0 : ¬(k0 = k) := fun h => hk h.symm
          simp [hq, hqk, hk0]
        · simp [hq]

theorem dlookup_isSome_iff {α β : Type} [DecidableEq α] (d : List (α × β))
    (q : α) : (dlookup d q).isSome = true ↔ q ∈ d.map Prod.fst := by
  induction d with
  | nil => simp [dlookup]
  | cons p rest ih =>
      obtain ⟨k0, v0⟩ := p
      simp only [dlookup, List.map_cons, List.mem_cons]
      by_cases hq : q = k0 <;> simp [hq, ih]

theorem dlookup_dbump_isSome {α : Type} [DecidableEq α] (d : List (α × ℕ))
    (k q : α) :
    (dlookup (dbump d k) q).isSome = true ↔ q = k ∨ (dlookup d q).isSome = true := by
  unfold dbump
  cases h : dlookup d k <;>
    · rw [dlookup_dupdate]
      by_cases hq : q = k <;> simp [hq]

theorem hasPair_nil (ctx : List Char) (c : Char) : ¬ hasPair [] ctx c := by
  rintro ⟨w, hw, _⟩
  simp [dlookup] at hw

theorem hasPair_bump (m : Model) (ctx q : List Char) (c r : Char) :
    hasPair (bump m ctx c) q r ↔ (q = ctx ∧ r = c) ∨ hasPair m q r := by
  have hstep : ∀ w1, hasPair (dupdate m ctx w1) q r ↔
      (if q = ctx then (dlookup w1 r).isSome = true else hasPair m q r) := by
    intro w1
    by_cases hq : q = ctx
    · rw [if_pos hq]
      constructor
      · rintro ⟨w, hw, hr⟩
        rw [dlookup_dupdate, if_pos hq] at hw
        obtain rfl : w1 = w := by injection hw
        exact hr
      · intro hr
        exact ⟨w1, by rw [dlookup_dupdate, if_pos hq], hr⟩
    · rw [if_neg hq]
      constructor
      · rintro ⟨w, hw, hr⟩
        rw [dlookup_dupdate, if_neg hq] at hw
        exact ⟨w, hw, hr⟩
      · rintro ⟨w, hw, hr⟩
        exact ⟨w, by rw [dlookup_dupdate, if_neg hq]; exact hw, hr⟩
  cases h : dlookup m ctx with
  | none =>
      have hb : bump m ctx c = dupdate m ctx (dbump [] c) := by rw [bump, h]
      rw [hb, hstep]
      by_cases hq : q = ctx
      · rw [if_pos hq, dlookup_dbump_isSome]
        constructor
        · rintro (hrc | hr)
          · exact Or.inl ⟨hq, hrc⟩
          · simp [dlookup] at hr
        · rintro (⟨-, hrc⟩ | ⟨w, hw, hr⟩)
          · exact Or.inl hrc
          · rw [hq, h] at hw; cases hw
      · rw [if_neg hq]
        constructor
        · exact fun hp => Or.inr hp
        · rintro (⟨hq2, -⟩ | hp)
          · exact absurd hq2 hq
          · exact hp
  | some w0 =>
      have hb : bump m ctx c = dupdate m ctx (dbump w0 c) := by rw [bump, h]
      rw [hb, hstep]
      by_cases hq : q = ctx
      · rw [if_pos hq, dlookup_dbump_isSome]
        constructor
        · rintro (hrc | hr)
          · exact Or.inl ⟨hq, hrc⟩
          · exact Or.inr ⟨w0, by rw [hq, h], hr⟩
        · rintro (⟨-, hrc⟩ | ⟨w, hw, hr⟩)
          · exact Or.inl hrc
          · rw [hq, h] at hw
            obtain rfl : w0 = w := by injection hw
            exact Or.inr hr
      · rw [if_neg hq]
        constructor
        · exact fun hp => Or.inr hp
        · rintro (⟨hq2, -⟩ | hp)
          · exact absurd hq2 hq
          · exact hp

theorem hasPair_foldl_bump (ps : List (List Char × Char)) (m : Model)
    (q : List Char) (r : Char) :
    hasPair (ps.foldl (fun acc p => bump acc p.1 p.2) m) q r ↔
      (q, r) ∈ ps ∨ hasPair m q r := by
  induction ps generalizing m with
  | nil => simp
  | cons a rest ih =>
      obtain ⟨a1, a2⟩ := a
      simp only [List.foldl_cons, List.mem_cons, ih, hasPair_bump, Prod.mk.injEq]
      tauto

theorem hasPair_build_model (n : ℕ) (wl : List (List Char)) (ctx : List Char)
    (c : Char) :
    hasPair (build_model n wl) ctx c ↔
      ∃ w ∈ wl, (ctx, c) ∈ transitions n (boundedW w) := by
  suffices h : ∀ (l : List (List Char)) (m : Model),
      hasPair (l.foldl (addWord n) m) ctx c ↔
        (∃ w ∈ l, (ctx, c) ∈ transitions n (boundedW w)) ∨ hasPair m ctx c by
    rw [build_model, h]
    simp [hasPair_nil ctx c]
  intro l
  induction l with
  | nil => simp
  | cons a rest ih =>
      intro m
      simp only [List.foldl_cons, ih, addWord, hasPair_foldl_bump, List.mem_cons]
      constructor
      · rintro (⟨w, hw, hm⟩ | hb | hm)
        · exact Or.inl ⟨w, Or.inr hw, hm⟩
        · exact Or.inl ⟨a, Or.inl rfl, hb⟩
        · exact Or.inr hm
      · rintro (⟨w, rfl | hw, hm⟩ | hm)
        · exact Or.inr (Or.inl hm)
        · exact Or.inl ⟨w, hw, hm⟩
        · exact Or.inr (Or.inr hm)

theorem transAux_mem (n : ℕ) (ctx : List Char) (c : Char) :
    ∀ (rest pre : List Char), (ctx, c) ∈ transAux n pre rest ↔
      ∃ k, k < rest.length ∧ ctx = lastChars n (pre ++ rest.take k) ∧
        rest[k]? = some c := by
  intro rest
  induction rest with
  | nil => intro pre; simp [transAux]
  | cons d ds ih =>
      intro pre
      simp only [transAux, List.mem_cons, Prod.mk.injEq]
      constructor
      · rintro (⟨hctx, hc⟩ | hmem)
        · exact ⟨0, by simp, by simpa using hctx, by simpa using hc.symm⟩
        · obtain ⟨k, hk, hctx, hget⟩ := (ih (pre ++ [d])).mp hmem
          refine ⟨k + 1, by simpa using hk, ?_, by simpa using hget⟩
          rw [hctx, List.take_succ_cons]
          congr 1
          simp
      · rintro ⟨k, hk, hctx, hget⟩
        cases k with
        | zero =>
            left
            refine ⟨by simpa using hctx, ?_⟩
            have h2 : some d = some c := by simpa using hget
            have h3 : d = c := by injection h2
            exact h3.symm
        | succ k =>
            right
            refine (ih (pre ++ [d])).mpr ⟨k, by simpa using hk, ?_, by simpa using hget⟩
            rw [hctx, List.take_succ_cons]
            congr 1
            simp

theorem transitions_mem_iff (n : ℕ) (ctx : List Char) (c : Char) (b0 : Char)
    (bs : List Char) :
    (ctx, c) ∈ transitions n (b0 :: bs) ↔
      ∃ i, 1 ≤ i ∧ i < (b0 :: bs).length ∧
        ctx = lastChars n ((b0 :: bs).take i) ∧ (b0 :: bs)[i]? = some c := by
  simp only [transitions]
  rw [transAux_mem]
  constructor
  · rintro ⟨k, hk, hctx, hget⟩
    refine ⟨k + 1, by omega, by simpa using hk, ?_, by simpa using hget⟩
    rw [hctx, List.take_succ_cons]
    simp
  · rintro ⟨i, hi1, hilen, hctx, hget⟩
    obtain ⟨k, rfl⟩ : ∃ k, i = k + 1 := ⟨i - 1, by omega⟩
    refine ⟨k, by simpa using hilen, ?_, by simpa using hget⟩
    rw [hctx, List.take_succ_cons]
    simp

theorem lastChars_pos (n : ℕ) (hn : 1 ≤ n) (s : List Char) :
    lastChars n s = s.drop (s.length - n) := by
  rw [lastChars, if_neg (by omega)]

theorem lastChars_concat (n : ℕ) (hn : 1 ≤ n) (s : List Char) (c : Char) :
    lastChars n (s ++ [c]) = sfx (n - 1) (lastChars n s) ++ [c] := by
  rw [lastChars_pos n hn, lastChars_pos n hn, sfx]
  by_cases h : n ≤ s.length
  · have h1 : (s ++ [c]).length - n ≤ s.length := by
      simp only [List.length_append, List.length_singleton]
      omega
    rw [List.drop_append_of_le_length h1]
    have hlen : (s.drop (s.length - n)).length = n := by
      rw [List.length_drop]
      omega
    rw [hlen]
    have h2 : n - (n - 1) = 1 := by omega
    rw [h2, List.drop_drop]
    congr 2
    simp only [List.length_append, List.length_singleton]
    omega
  · have h1 : (s ++ [c]).length - n = 0 := by
      simp only [List.length_append, List.length_singleton]
      omega
    have h2 : s.length - n = 0 := by omega
    rw [h1, h2, List.drop_zero, List.drop_zero]
    have h3 : s.length - (n - 1) = 0 := by omega
    rw [h3, List.drop_zero]

theorem lastChars_singleton (n : ℕ) (hn : 1 ≤ n) (c : Char) :
    lastChars n [c] = [c] := by
  rw [lastChars_pos n hn, List.length_singleton,
    show 1 - n = 0 from by omega, List.drop_zero]

theorem lastChars_length (n : ℕ) (hn : 1 ≤ n) (s : List Char) :
    (lastChars n s).length = min n s.length := by
  rw [lastChars_pos n hn, List.length_drop]
  omega

theorem pickFrom_mem (entries : List (Char × ℝ)) (x : ℝ) (c : Char)
    (h : pickFrom entries x = some c) : c ∈ entries.map Prod.fst := by
  induction entries generalizing x with
  | nil => simp [pickFrom] at h
  | cons e rest ih =>
      obtain ⟨c0, w0⟩ := e
      cases rest with
      | nil =>
          simp only [pickFrom] at h
          injection h with h
          simp [h]
      | cons f fs =>
          simp only [pickFrom] at h
          by_cases hx : x < w0
          · rw [if_pos hx] at h
            injection h with h
            simp [h]
          · rw [if_neg hx] at h
            have h2 := ih (x - w0) h
            simp only [List.map_cons, List.mem_cons] at h2 ⊢
            tauto

theorem pyChoices_mem (entries : List (Char × ℝ)) (u : ℝ) (c : Char)
    (h : pyChoices entries u = some c) : c ∈ entries.map Prod.fst := by
  rw [pyChoices] at h
  by_cases ht : (entries.map Prod.snd).sum ≤ 0
  · rw [if_pos ht] at h
    cases h
  · rw [if_neg ht] at h
    exact pickFrom_mem _ _ _ h

theorem dupdate_keys {α β : Type} [DecidableEq α] (d : List (α × β)) (k : α)
    (v : β) (h : (dlookup d k).isSome = true) :
    (dupdate d k v).map Prod.fst = d.map Prod.fst := by
  induction d with
  | nil => simp [dlookup] at h
  | cons p rest ih =>
      obtain ⟨k0, v0⟩ := p
      by_cases hk : k = k0
      · simp [dupdate, hk]
      · have h2 : (dlookup rest k).isSome = true := by
          rw [dlookup, if_neg hk] at h
          exact h
        simp [dupdate, hk, ih h2]

theorem boostTerm_keys (w : List (Char × ℕ)) (dist : List ℝ) (L : ℕ)
    (bw : List (Char × ℝ)) (h : boostTerm w dist L = some bw) :
    bw.map Prod.fst = w.map Prod.fst := by
  have hwr : (w.map (fun p => (p.1, (p.2 : ℝ)))).map Prod.fst = w.map Prod.fst := by
    simp
  cases hl : dlookup (w.map (fun p => (p.1, (p.2 : ℝ)))) TERMINATOR with
  | none =>
      simp only [boostTerm, hl] at h
      injection h with h
      rw [← h]
      exact hwr
  | some v =>
      simp only [boostTerm, hl] at h
      split_ifs at h with hL
      · injection h with h
        rw [← h, dupdate_keys _ _ _ (by rw [hl]; rfl)]
        exact hwr
      · cases hg : dist.getLast? with
        | none => rw [hg] at h; cases h
        | some dd =>
            rw [hg] at h
            injection h with h
            rw [← h, dupdate_keys _ _ _ (by rw [hl]; rfl)]
            exact hwr

theorem boundedW_length (w : List Char) : (boundedW w).length = w.length + 2 := by
  simp [boundedW]

theorem boundedW_get_last (w : List Char) :
    (boundedW w)[w.length + 1]? = some TERMINATOR := by
  rw [show boundedW w = INITIATOR :: (w ++ [TERMINATOR]) from rfl,
    List.getElem?_cons_succ, List.getElem?_concat_length]

theorem boundedW_target (w : List Char) (i : ℕ) (c : Char) (h1 : 1 ≤ i)
    (h : (boundedW w)[i]? = some c) : c ∈ w ∨ c = TERMINATOR := by
  obtain ⟨j, rfl⟩ : ∃ j, i = j + 1 := ⟨i - 1, by omega⟩
  rw [show boundedW w = INITIATOR :: (w ++ [TERMINATOR]) from rfl,
    List.getElem?_cons_succ] at h
  have hmem : c ∈ w ++ [TERMINATOR] := List.getElem?_mem h
  simp only [List.mem_append, List.mem_singleton] at hmem
  exact hmem

theorem pyDedup_foldl_mem {α : Type} [DecidableEq α] (l : List α) :
    ∀ (acc : List α) (y : α),
      y ∈ l.foldl (fun acc x => if x ∈ acc then acc else acc ++ [x]) acc →
      y ∈ acc ∨ y ∈ l := by
  induction l with
  | nil =>
      intro acc y hy
      exact Or.inl hy
  | cons x xs ih =>
      intro acc y hy
      rw [List.foldl_cons] at hy
      rcases ih _ y hy with hacc | hxs
      · by_cases hx : x ∈ acc
        · rw [if_pos hx] at hacc
          exact Or.inl hacc
        · rw [if_neg hx] at hacc
          rcases List.mem_append.mp hacc with h1 | h2
          · exact Or.inl h1
          · exact Or.inr (List.mem_cons.mpr (Or.inl (by simpa using h2)))
      · exact Or.inr (List.mem_cons_of_mem _ hxs)

theorem pyDedup_subset {α : Type} [DecidableEq α] (l : List α) :
    ∀ y ∈ pyDedup l, y ∈ l := by
  intro y hy
  rcases pyDedup_foldl_mem l [] y hy with h | h
  · cases h
  · exact h

theorem pyDedup_foldl_nodup {α : Type} [DecidableEq α] (l : List α) :
    ∀ (acc : List α), acc.Nodup →
      (l.foldl (fun acc x => if x ∈ acc then acc else acc ++ [x]) acc).Nodup := by
  induction l with
  | nil =>
      intro acc h
      exact h
  | cons x xs ih =>
      intro acc h
      rw [List.foldl_cons]
      by_cases hx : x ∈ acc
      · rw [if_pos hx]
        exact ih _ h
      · rw [if_neg hx]
        refine ih _ ?_
        refine List.Nodup.append h (List.nodup_singleton x) ?_
        intro z hz hzx
        obtain rfl : z = x := by simpa using hzx
        exact hx hz

theorem pyDedup_nodup {α : Type} [DecidableEq α] (l : List α) :
    (pyDedup l).Nodup :=
  pyDedup_foldl_nodup l [] List.nodup_nil

theorem splitAux_chars (c : Char) :
    ∀ (l acc w : List Char), w ∈ splitAux l acc → c ∈ w →
      (c ∈ l ∧ c ≠ ' ') ∨ c ∈ acc := by
  intro l
  induction l with
  | nil =>
      intro acc w hw hc
      rw [splitAux] at hw
      split_ifs at hw with h
      · simp at hw
      · simp only [List.mem_singleton] at hw
        subst hw
        exact Or.inr (by simpa using hc)
  | cons d ds ih =>
      intro acc w hw hc
      rw [splitAux] at hw
      by_cases hd : d = ' '
      · rw [if_pos hd] at hw
        by_cases ha : acc.isEmpty
        · rw [if_pos ha] at hw
          rcases ih [] w hw hc with ⟨h1, h2⟩ | h3
          · exact Or.inl ⟨List.mem_cons_of_mem _ h1, h2⟩
          · simp at h3
        · rw [if_neg ha] at hw
          rcases List.mem_cons.mp hw with rfl | hw2
          · exact Or.inr (by simpa using hc)
          · rcases ih [] w hw2 hc with ⟨h1, h2⟩ | h3
            · exact Or.inl ⟨List.mem_cons_of_mem _ h1, h2⟩
            · simp at h3
      · rw [if_neg hd] at hw
        rcases ih (d :: acc) w hw hc with ⟨h1, h2⟩ | h3
        · exact Or.inl ⟨List.mem_cons_of_mem _ h1, h2⟩
        · rcases List.mem_cons.mp h3 with rfl | h4
          · exact Or.inl ⟨List.mem_cons_self _ _, hd⟩
          · exact Or.inr h4

theorem pyStrip_subset (w bad : List Char) : ∀ c ∈ pyStrip w bad, c ∈ w := by
  intro c hc
  rw [pyStrip, List.mem_reverse] at hc
  have h1 := (List.dropWhile_suffix _).sublist.subset hc
  rw [List.mem_reverse] at h1
  exact (List.dropWhile_suffix _).sublist.subset h1

theorem parse_words_sound (u : Uni) (n : ℕ) (text : Option (List Char))
    (wl : List (List Char)) (h : parse_words u n text = some wl) :
    wl.Nodup ∧ ∀ w ∈ wl, n < w.length ∧ ∀ c ∈ w, keepChar u.cat c = true := by
  cases text with
  | none => cases h
  | some t0 =>
      simp only [parse_words] at h
      injection h with h
      subst h
      refine ⟨pyDedup_nodup _, ?_⟩
      intro w hw
      have hw1 := pyDedup_subset _ w hw
      rw [List.mem_filter] at hw1
      obtain ⟨hw2, hlen⟩ := hw1
      refine ⟨by simpa using hlen, ?_⟩
      rw [List.mem_map] at hw2
      obtain ⟨w0, hw0, rfl⟩ := hw2
      intro c hc
      have hcw0 : c ∈ w0 := pyStrip_subset _ _ c hc
      have hw0s := pyDedup_subset _ _ hw0
      rw [splitOnSpace] at hw0s
      rcases splitAux_chars c _ [] w0 hw0s hcw0 with ⟨hct4, hcs⟩ | hacc
      · rw [List.mem_map] at hct4
        obtain ⟨x, _, hfx⟩ := hct4
        by_cases hk : keepChar u.cat x
        · rw [if_pos hk] at hfx
          rw [← hfx]
          exact hk
        · rw [if_neg hk] at hfx
          exact absurd hfx.symm hcs
      · simp at hacc

theorem parse_words_goodChar (u : Uni) (n : ℕ) (text : Option (List Char))
    (wl : List (List Char)) (h : parse_words u n text = some wl)
    (hI : keepChar u.cat INITIATOR = false)
    (hT : keepChar u.cat TERMINATOR = false) :
    ∀ w ∈ wl, noSent w := by
  intro w hw c hc
  have hk := ((parse_words_sound u n text wl h).2 w hw).2 c hc
  constructor
  · intro hcI
    rw [hcI, hI] at hk
    cases hk
  · intro hcT
    rw [hcT, hT] at hk
    cases hk

theorem reach_lookup_isSome (n : ℕ) (_hn : 1 ≤ n) (wl : List (List Char))
    (word : List Char) (h : ReachCtx n wl word) :
    (dlookup (build_model n wl) (lastChars n word)).isSome = true := by
  obtain ⟨w, hw, i, hi1, hilen, hctx⟩ := h
  obtain ⟨c, hc⟩ : ∃ c, (boundedW w)[i]? = some c := by
    rw [List.getElem?_eq_getElem hilen]
    exact ⟨_, rfl⟩
  have hmem : (lastChars n ((boundedW w).take i), c) ∈ transitions n (boundedW w) := by
    rw [show boundedW w = INITIATOR :: (w ++ [TERMINATOR]) from rfl] at hc ⊢
    rw [transitions_mem_iff]
    exact ⟨i, hi1, hilen, rfl, hc⟩
  have hp : hasPair (build_model n wl) (lastChars n word) c := by
    rw [hctx, hasPair_build_model]
    exact ⟨w, hw, hmem⟩
  obtain ⟨wt, hwt, _⟩ := hp
  rw [hwt]
  rfl

theorem reach_step (n : ℕ) (hn : 1 ≤ n) (wl : List (List Char))
    (word : List Char) (c : Char)
    (hp : hasPair (build_model n wl) (lastChars n word) c)
    (hcT : c ≠ TERMINATOR) :
    ReachCtx n wl (word ++ [c]) := by
  rw [hasPair_build_model] at hp
  obtain ⟨w, hw, hmem⟩ := hp
  rw [show boundedW w = INITIATOR :: (w ++ [TERMINATOR]) from rfl,
    transitions_mem_iff] at hmem
  obtain ⟨i, hi1, hilen, hctx, hget⟩ := hmem
  have hblen : (INITIATOR :: (w ++ [TERMINATOR])).length = w.length + 2 := by
    simp
  have hne : i ≠ w.length + 1 := by
    intro he
    rw [he] at hget
    have hlast := boundedW_get_last w
    rw [show boundedW w = INITIATOR :: (w ++ [TERMINATOR]) from rfl] at hlast
    rw [hlast] at hget
    have h2 : TERMINATOR = c := by injection hget
    exact hcT h2.symm
  have hilen2 : i + 1 < (boundedW w).length := by
    rw [boundedW_length]
    rw [hblen] at hilen
    omega
  refine ⟨w, hw, i + 1, by omega, hilen2, ?_⟩
  have htake : (boundedW w).take (i + 1) = (boundedW w).take i ++ [c] := by
    rw [List.take_succ]
    rw [show (boundedW w)[i]? = some c from hget]
    rfl
  rw [htake, lastChars_concat n hn, lastChars_concat n hn, hctx]
  rfl

theorem reach_init (n : ℕ) (wl : List (List Char)) (w0 : List Char)
    (hw0 : w0 ∈ wl) : ReachCtx n wl [INITIATOR] := by
  refine ⟨w0, hw0, 1, le_refl 1, ?_, ?_⟩
  · rw [boundedW_length]
    omega
  · rw [show (boundedW w0).take 1 = [INITIATOR] from by simp [boundedW]]

theorem genWordLoop_no_missing (n : ℕ) (hn : 1 ≤ n) (wl : List (List Char))
    (dist : List ℝ) (rs : ℕ → ℝ) :
    ∀ (fuel ridx : ℕ) (word : List Char),
      (ReachCtx n wl word ∨ word.getLastD ' ' = TERMINATOR) →
      genWordLoop n dist rs fuel (build_model n wl) ridx word ≠
        .error .missingCtx := by
  intro fuel
  induction fuel with
  | zero =>
      intro ridx word _
      rw [genWordLoop]
      simp
  | succ f ih =>
      intro ridx word hinv
      rw [genWordLoop]
      by_cases hlast : word.getLastD ' ' ≠ TERMINATOR
      · rw [if_pos hlast]
        rcases hinv with hreach | hterm
        · cases hl : dlookup (build_model n wl) (lastChars n word) with
          | none =>
              have h2 := reach_lookup_isSome n hn wl word hreach
              rw [hl] at h2
              cases h2
          | some wts =>
              simp only
              cases hb : boostTerm wts dist word.length with
              | none => simp
              | some bw =>
                  simp only
                  cases hc : pyChoices bw (rs ridx) with
                  | none => simp
                  | some c =>
                      simp only
                      apply ih
                      by_cases hcT : c = TERMINATOR
                      · right
                        rw [hcT]
                        simp [List.getLastD_concat]
                      · left
                        refine reach_step n hn wl word c ?_ hcT
                        have hmem := pyChoices_mem bw (rs ridx) c hc
                        rw [boostTerm_keys wts dist word.length bw hb,
                          ← dlookup_isSome_iff] at hmem
                        exact ⟨wts, hl, hmem⟩
        · exact absurd hterm hlast
      · rw [if_neg hlast]
        simp

theorem getLastD_mem_self (l : List Char) : ∀ d, l.getLastD d ∈ d :: l := by
  induction l with
  | nil => intro d; simp
  | cons a as ih =>
      intro d
      rw [List.getLastD_cons]
      rcases List.mem_cons.mp (ih a) with h | h
      · rw [h]
        exact List.mem_cons_of_mem d (List.mem_cons_self a as)
      · exact List.mem_cons_of_mem d (List.mem_cons_of_mem a h)

theorem sentinel_ne : INITIATOR ≠ TERMINATOR := by decide

theorem no_terminator_first (u : Uni) (n : ℕ) (hn : 1 ≤ n)
    (text : Option (List Char)) (wl : List (List Char))
    (hparse : parse_words u n text = some wl)
    (hI : keepChar u.cat INITIATOR = false)
    (hT : keepChar u.cat TERMINATOR = false) :
    ¬ hasPair (build_model n wl) (lastChars n [INITIATOR]) TERMINATOR := by
  intro hp
  rw [lastChars_singleton n hn, hasPair_build_model] at hp
  obtain ⟨w, hw, hmem⟩ := hp
  rw [show boundedW w = INITIATOR :: (w ++ [TERMINATOR]) from rfl,
    transitions_mem_iff] at hmem
  obtain ⟨i, hi1, hilen, hctx, hget⟩ := hmem
  have hsound := parse_words_sound u n text wl hparse
  have hwlen : n < w.length := (hsound.2 w hw).1
  have hkeep := (hsound.2 w hw).2
  have hilen2 : i < w.length + 2 := by
    simpa using hilen
  have htl : ((INITIATOR :: (w ++ [TERMINATOR])).take i).length = i := by
    rw [List.length_take]
    simp only [List.length_cons, List.length_append, List.length_singleton]
    omega
  have hlen1 : (lastChars n ((INITIATOR :: (w ++ [TERMINATOR])).take i)).length = 1 := by
    rw [← hctx]
    rfl
  rw [lastChars_length n hn, htl] at hlen1
  by_cases hi : i = 1
  · subst hi
    rw [List.getElem?_cons_succ] at hget
    cases w with
    | nil =>
        simp only [List.length_nil] at hwlen
        omega
    | cons a as =>
        rw [List.cons_append, List.getElem?_cons_zero] at hget
        have ha : a = TERMINATOR := by injection hget
        have hk := hkeep a (by simp)
        rw [ha, hT] at hk
        cases hk
  · have hn1 : n = 1 := by omega
    have hi2 : 2 ≤ i := by omega
    rw [lastChars_pos n hn, htl] at hctx
    subst hn1
    have h0 : (((INITIATOR :: (w ++ [TERMINATOR])).take i).drop (i - 1))[0]? =
        some INITIATOR := by
      rw [← hctx]
      rfl
    rw [List.getElem?_drop, List.getElem?_take] at h0
    rw [if_pos (by omega : i - 1 + 0 < i)] at h0
    obtain ⟨j, hj⟩ : ∃ j, i - 1 + 0 = j + 1 := ⟨i - 2, by omega⟩
    rw [hj, List.getElem?_cons_succ] at h0
    have hmem2 : INITIATOR ∈ w ++ [TERMINATOR] := List.getElem?_mem h0
    rcases List.mem_append.mp hmem2 with hmw | hmsing
    · have hk := hkeep INITIATOR hmw
      rw [hI] at hk
      cases hk
    · exact sentinel_ne (by simpa using hmsing)

theorem dropWhile_noSent (l : List Char)
    (h : ∀ c ∈ l, (c ∈ [INITIATOR, TERMINATOR]) = False) :
    l.dropWhile (fun c => decide (c ∈ [INITIATOR, TERMINATOR])) = l := by
  cases l with
  | nil => rfl
  | cons a as =>
      rw [List.dropWhile_cons_of_neg]
      rw [decide_eq_true_iff]
      rw [h a (List.mem_cons_self a as)]
      exact id

theorem pyStrip_sentinel (mid : List Char) (hne : mid ≠ []) (hok : noSent mid) :
    pyStrip (INITIATOR :: (mid ++ [TERMINATOR])) [INITIATOR, TERMINATOR] = mid := by
  have hmemf : ∀ c ∈ mid, (c ∈ [INITIATOR, TERMINATOR]) = False := by
    intro c hc
    have h2 := hok c hc
    simp [h2.1, h2.2]
  cases mid with
  | nil => cases hne rfl
  | cons a as =>
      rw [pyStrip]
      have hfront : ((INITIATOR :: ((a :: as) ++ [TERMINATOR])).dropWhile
          (fun c => decide (c ∈ [INITIATOR, TERMINATOR]))) = (a :: as) ++ [TERMINATOR] := by
        rw [List.dropWhile_cons_of_pos (by decide)]
        rw [List.cons_append, List.dropWhile_cons_of_neg]
        rw [decide_eq_true_iff]
        rw [hmemf a (List.mem_cons_self a as)]
        exact id
      rw [hfront]
      have hrev : ((a :: as) ++ [TERMINATOR]).reverse =
          TERMINATOR :: (a :: as).reverse := by
        simp
      rw [hrev]
      rw [List.dropWhile_cons_of_pos (by decide)]
      rw [dropWhile_noSent _ (by
        intro c hc
        exact hmemf c (List.mem_reverse.mp hc))]
      simp

theorem goodProgress_last (word : List Char) (hg : GoodProgress word)
    (hlast : word.getLastD ' ' = TERMINATOR) :
    ∃ mid, mid ≠ [] ∧ noSent mid ∧ word = INITIATOR :: (mid ++ [TERMINATOR]) := by
  rcases hg with ⟨mid, rfl, hmid⟩ | ⟨mid, hne, rfl, hmid⟩
  · exfalso
    rw [List.getLastD_cons] at hlast
    rcases List.mem_cons.mp (getLastD_mem_self mid INITIATOR) with h | h
    · rw [h] at hlast
      exact sentinel_ne hlast
    · exact (hmid _ h).2 hlast
  · exact ⟨mid, hne, hmid, rfl⟩

theorem genWordLoop_good (u : Uni) (n : ℕ) (hn : 1 ≤ n)
    (text : Option (List Char)) (wl : List (List Char))
    (hparse : parse_words u n text = some wl)
    (hI : keepChar u.cat INITIATOR = false)
    (hT : keepChar u.cat TERMINATOR = false)
    (dist : List ℝ) (rs : ℕ → ℝ) :
    ∀ (fuel ridx : ℕ) (word : List Char), GoodProgress word →
      ∀ wres m2 r2,
        genWordLoop n dist rs fuel (build_model n wl) ridx word = .ok (wres, m2, r2) →
        ∃ mid, mid ≠ [] ∧ noSent mid ∧ wres = INITIATOR :: (mid ++ [TERMINATOR]) := by
  intro fuel
  induction fuel with
  | zero =>
      intro ridx word _ wres m2 r2 h
      rw [genWordLoop] at h
      cases h
  | succ f ih =>
      intro ridx word hg wres m2 r2 h
      rw [genWordLoop] at h
      by_cases hlast : word.getLastD ' ' ≠ TERMINATOR
      · rw [if_pos hlast] at h
        cases hl : dlookup (build_model n wl) (lastChars n word) with
        | none =>
            rw [hl] at h
            cases h
        | some wts =>
            rw [hl] at h
            simp only at h
            cases hb : boostTerm wts dist word.length with
            | none =>
                rw [hb] at h
                cases h
            | some bw =>
                rw [hb] at h
                simp only at h
                cases hc : pyChoices bw (rs ridx) with
                | none =>
                    rw [hc] at h
                    cases h
                | some c =>
                    rw [hc] at h
                    simp only at h
                    have hcmem := pyChoices_mem bw (rs ridx) c hc
                    rw [boostTerm_keys wts dist word.length bw hb,
                      ← dlookup_isSome_iff] at hcmem
                    have hp : hasPair (build_model n wl) (lastChars n word) c :=
                      ⟨wts, hl, hcmem⟩
                    -- the drawn character is a transition target of some word
                    have htgt : (∃ w ∈ wl, c ∈ w) ∨ c = TERMINATOR := by
                      have hp2 := hp
                      rw [hasPair_build_model] at hp2
                      obtain ⟨w, hw, hmem⟩ := hp2
                      rw [show boundedW w = INITIATOR :: (w ++ [TERMINATOR]) from rfl,
                        transitions_mem_iff] at hmem
                      obtain ⟨i, hi1, _, _, hget⟩ := hmem
                      rcases boundedW_target w i c hi1 hget with hcw | hcT
                      · exact Or.inl ⟨w, hw, hcw⟩
                      · exact Or.inr hcT
                    rcases hg with ⟨mid, rfl, hmid⟩ | ⟨mid, hne, hw2, hmid⟩
                    · by_cases hcT : c = TERMINATOR
                      · -- drawing the terminator: the in-progress part must be
                        -- non-empty, because the initiator context never maps
                        -- to the terminator
                        cases mid with
                        | nil =>
                            exfalso
                            rw [hcT] at hp
                            exact no_terminator_first u n hn text wl hparse hI hT hp
                        | cons a as =>
                            refine ih (ridx + 1) _ ?_ wres m2 r2 h
                            right
                            refine ⟨a :: as, by simp, ?_, hmid⟩
                            rw [hcT]
                            simp
                      · refine ih (ridx + 1) _ ?_ wres m2 r2 h
                        left
                        refine ⟨mid ++ [c], by simp, ?_⟩
                        intro x hx
                        rcases List.mem_append.mp hx with hx1 | hx2
                        · exact hmid x hx1
                        · obtain rfl : x = c := by simpa using hx2
                          rcases htgt with ⟨w, hw, hcw⟩ | hcT2
                          · have hk : keepChar u.cat x = true :=
                              ((parse_words_sound u n text wl hparse).2 w hw).2 x hcw
                            constructor
                            · intro hxI
                              rw [hxI, hI] at hk
                              cases hk
                            · intro hxT
                              exact absurd hxT hcT
                          · exact absurd hcT2 hcT
                    · -- the last character is already the terminator, yet the
                      -- loop guard claimed otherwise
                      exfalso
                      rw [hw2] at hlast
                      rw [show INITIATOR :: (mid ++ [TERMINATOR]) =
                        (INITIATOR :: mid) ++ [TERMINATOR] from by simp] at hlast
                      rw [List.getLastD_concat] at hlast
                      exact hlast rfl
      · rw [if_neg hlast] at h
        push_neg at hlast
        injection h with h2
        obtain ⟨mid, hne, hmid, hw⟩ := goodProgress_last word hg hlast
        refine ⟨mid, hne, hmid, ?_⟩
        rw [← hw]
        injection h2 with h3 h4
        exact h3.symm

theorem genWordLoop_model (n : ℕ) (dist : List ℝ) (rs : ℕ → ℝ) :
    ∀ (fuel : ℕ) (m : Model) (ridx : ℕ) (word wres : List Char) (m2 : Model)
      (r2 : ℕ),
      genWordLoop n dist rs fuel m ridx word = .ok (wres, m2, r2) → m2 = m := by
  intro fuel
  induction fuel with
  | zero =>
      intro m ridx word wres m2 r2 h
      rw [genWordLoop] at h
      cases h
  | succ f ih =>
      intro m ridx word wres m2 r2 h
      rw [genWordLoop] at h
      by_cases hlast : word.getLastD ' ' ≠ TERMINATOR
      · rw [if_pos hlast] at h
        cases hl : dlookup m (lastChars n word) with
        | none =>
            rw [hl] at h
            cases h
        | some wts =>
            rw [hl] at h
            simp only at h
            cases hb : boostTerm wts dist word.length with
            | none =>
                rw [hb] at h
                cases h
            | some bw =>
                rw [hb] at h
                simp only at h
                cases hc : pyChoices bw (rs ridx) with
                | none =>
                    rw [hc] at h
                    cases h
                | some c =>
                    rw [hc] at h
                    simp only at h
                    exact ih m (ridx + 1) _ wres m2 r2 h
      · rw [if_neg hlast] at h
        injection h with h2
        injection h2 with h3 h4
        injection h4 with h5 h6
        exact h5.symm

theorem genOuter_invariant (n : ℕ) (dist : List ℝ) (wl : List (List Char))
    (rs : ℕ → ℝ) (fIn : ℕ) (count : ℕ) :
    ∀ (fOut : ℕ) (m : Model) (ridx : ℕ) (acc : List (List Char)),
      acc.length ≤ count → acc.Nodup → (∀ w ∈ acc, w ∉ wl) →
      ∀ l m2, genOuter n dist wl rs fIn fOut m ridx count acc = .ok (l, m2) →
        l.length = count ∧ l.Nodup ∧ ∀ w ∈ l, w ∉ wl := by
  intro fOut
  induction fOut with
  | zero =>
      intro m ridx acc hlen hnd hnw l m2 h
      rw [genOuter] at h
      by_cases hc : acc.length < count
      · rw [if_pos hc] at h
        cases h
      · rw [if_neg hc] at h
        injection h with h2
        injection h2 with h3 h4
        subst h3
        exact ⟨by omega, hnd, hnw⟩
  | succ f ih =>
      intro m ridx acc hlen hnd hnw l m2 h
      rw [genOuter] at h
      by_cases hc : acc.length < count
      · rw [if_pos hc] at h
        cases hg : generate_word n dist rs fIn m ridx with
        | error e =>
            rw [hg] at h
            cases h
        | ok res =>
            obtain ⟨w, m3, r3⟩ := res
            rw [hg] at h
            simp only at h
            by_cases hin : w ∈ wl ∨ w ∈ acc
            · rw [if_pos hin] at h
              exact ih m3 r3 acc hlen hnd hnw l m2 h
            · rw [if_neg hin] at h
              push_neg at hin
              refine ih m3 r3 (acc ++ [w]) ?_ ?_ ?_ l m2 h
              · simp only [List.length_append, List.length_singleton]
                omega
              · refine List.Nodup.append hnd (List.nodup_singleton w) ?_
                intro x hx hxw
                obtain rfl : x = w := by simpa using hxw
                exact hin.2 hx
              · intro x hx
                rcases List.mem_append.mp hx with h1 | h2
                · exact hnw x h1
                · obtain rfl : x = w := by simpa using h2
                  exact hin.1
      · rw [if_neg hc] at h
        injection h with h2
        injection h2 with h3 h4
        subst h3
        exact ⟨by omega, hnd, hnw⟩

theorem cumulList_length (histo : List (ℕ × ℕ)) (total : ℕ) :
    ∀ k, (cumulList histo total k).length = k + 1 := by
  intro k
  induction k with
  | zero => rfl
  | succ j ih =>
      rw [cumulList, cumulStep]
      simp [ih]

theorem cumulList_getLastD (histo : List (ℕ × ℕ)) (total : ℕ) :
    ∀ k, (cumulList histo total k).getLastD 0 =
      (cumulList histo total k).getD k 0 := by
  intro k
  induction k with
  | zero => rfl
  | succ j _ =>
      rw [cumulList, cumulStep, List.getLastD_concat]
      rw [List.getD_eq_getElem?_getD]
      rw [show j + 1 = (cumulList histo total j).length from
        (cumulList_length histo total j).symm]
      rw [List.getElem?_concat_length]
      rfl

theorem cumulList_stable (histo : List (ℕ × ℕ)) (total : ℕ) (j i : ℕ)
    (hij : i ≤ j) :
    (cumulList histo total (j + 1)).getD i 0 =
      (cumulList histo total j).getD i 0 := by
  rw [cumulList, cumulStep]
  rw [List.getD_append]
  rw [cumulList_length]
  omega

theorem cumulList_adj (histo : List (ℕ × ℕ)) (total : ℕ) :
    ∀ k i, i < k → (cumulList histo total k).getD i 0 ≤
      (cumulList histo total k).getD (i + 1) 0 := by
  intro k
  induction k with
  | zero =>
      intro i h
      omega
  | succ j ih =>
      intro i h
      by_cases hij : i < j
      · rw [cumulList_stable histo total j i (by omega),
          cumulList_stable histo total j (i + 1) (by omega)]
        exact ih i hij
      · obtain rfl : i = j := by omega
        rw [cumulList_stable histo total i i (le_refl i)]
        have hlast : (cumulList histo total (i + 1)).getD (i + 1) 0 =
            (cumulList histo total i).getLastD 0 +
              match dlookup histo (i + 1) with
              | some k => Real.sqrt ((k : ℝ) / (total : ℝ))
              | none => 0 := by
          rw [cumulList, cumulStep]
          rw [List.getD_eq_getElem?_getD]
          rw [show i + 1 = (cumulList histo total i).length from
            (cumulList_length histo total i).symm]
          rw [List.getElem?_concat_length]
          rfl
        rw [hlast, cumulList_getLastD]
        refine le_add_of_nonneg_right ?_
        cases dlookup histo (i + 1) with
        | none => simp
        | some v =>
            simp only
            exact Real.sqrt_nonneg _

theorem cumulList_mono (histo : List (ℕ × ℕ)) (total : ℕ) (k : ℕ) :
    ∀ i j, i ≤ j → j ≤ k → (cumulList histo total k).getD i 0 ≤
      (cumulList histo total k).getD j 0 := by
  intro i j
  induction j with
  | zero =>
      intro hij _
      obtain rfl : i = 0 := by omega
      exact le_refl _
  | succ jj ihj =>
      intro hij hjk
      by_cases hi : i = jj + 1
      · subst hi
        exact le_refl _
      · exact le_trans (ihj (by omega) (by omega))
          (cumulList_adj histo total k jj (by omega))

theorem cumulList_getD_zero (histo : List (ℕ × ℕ)) (total : ℕ) :
    ∀ k, (cumulList histo total k).getD 0 0 = 0 := by
  intro k
  induction k with
  | zero => rfl
  | succ j ih =>
      rw [cumulList_stable histo total j 0 (by omega)]
      exact ih

theorem dlookup_map_val {α β γ : Type} [DecidableEq α] (f : β → γ)
    (d : List (α × β)) (q : α) :
    dlookup (d.map (fun p => (p.1, f p.2))) q = (dlookup d q).map f := by
  induction d with
  | nil => rfl
  | cons p rest ih =>
      obtain ⟨k0, v0⟩ := p
      simp only [List.map_cons, dlookup]
      by_cases hq : q = k0 <;> simp [hq, ih]

theorem dupdate_ne_nil {α β : Type} [DecidableEq α] (d : List (α × β)) (k : α)
    (v : β) : dupdate d k v ≠ [] := by
  cases d with
  | nil => simp [dupdate]
  | cons p rest =>
      obtain ⟨k0, v0⟩ := p
      rw [dupdate]
      by_cases hk : k = k0 <;> simp [hk]

theorem dbump_ne_nil {α : Type} [DecidableEq α] (d : List (α × ℕ)) (k : α) :
    dbump d k ≠ [] := by
  rw [dbump]
  cases dlookup d k <;> exact dupdate_ne_nil _ _ _

theorem histo_ne_nil (wl : List (List Char)) (hne : wl ≠ []) :
    wl.foldl (fun d w => dbump d w.length) [] ≠ [] := by
  suffices h : ∀ (l : List (List Char)) (d : List (ℕ × ℕ)), d ≠ [] →
      l.foldl (fun d w => dbump d w.length) d ≠ [] by
    cases wl with
    | nil => cases hne rfl
    | cons x xs =>
        rw [List.foldl_cons]
        exact h xs _ (dbump_ne_nil [] x.length)
  intro l
  induction l with
  | nil =>
      intro d hd
      exact hd
  | cons x xs ih =>
      intro d hd
      rw [List.foldl_cons]
      exact ih _ (dbump_ne_nil d x.length)

theorem getLastD_of_getLast? (l : List ℝ) (x : ℝ) (h : l.getLast? = some x) :
    l.getD (l.length - 1) 0 = x := by
  rw [List.getD_eq_getElem?_getD, ← List.getLast?_eq_getElem?, h]
  rfl

/-- The model built from the `pmText` corpus. -/
theorem model_pm_eval : build_model 2 [pintW, mineW] = modelPM := by
  decide

/-- The length distribution of the `pmText` corpus: both words have
length four, so the only nonzero entry is `sqrt(2/2) = 1` at index 4. -/
theorem lenDist_pm : length_distribution [pintW, mineW] = some distPM := by
  simp only [length_distribution]
  rw [show ([pintW, mineW].foldl (fun d w => dbump d w.length) ([] : List (ℕ × ℕ)))
      = [(4, 2)] from by decide]
  rw [show maxKey [(4, 2)] = 4 from by decide]
  norm_num [cumulList, cumulStep, dlookup, distPM, List.getLastD]

/-- With the `rsPine` draw stream the sampler produces the novel word
"pine" from the `pmText` model in five draws. -/
theorem genRun_pm : generate_word 2 distPM rsPine 6 modelPM 0 =
    .ok (pineW, modelPM, 5) := by
  have s0 : genWordLoop 2 distPM rsPine 6 modelPM 0 ['#'] =
      genWordLoop 2 distPM rsPine 5 modelPM 1 ['#', 'p'] := by
    rw [genWordLoop]
    norm_num +decide [lastChars, dlookup, modelPM, boostTerm, pyChoices, pickFrom,
      rsPine, dupdate, List.getLastD, TERMINATOR, distPM]
  have s1 : genWordLoop 2 distPM rsPine 5 modelPM 1 ['#', 'p'] =
      genWordLoop 2 distPM rsPine 4 modelPM 2 ['#', 'p', 'i'] := by
    rw [genWordLoop]
    norm_num +decide [lastChars, dlookup, modelPM, boostTerm, pyChoices, pickFrom,
      rsPine, dupdate, List.getLastD, TERMINATOR, distPM]
  have s2 : genWordLoop 2 distPM rsPine 4 modelPM 2 ['#', 'p', 'i'] =
      genWordLoop 2 distPM rsPine 3 modelPM 3 ['#', 'p', 'i', 'n'] := by
    rw [genWordLoop]
    norm_num +decide [lastChars, dlookup, modelPM, boostTerm, pyChoices, pickFrom,
      rsPine, dupdate, List.getLastD, TERMINATOR, distPM]
  have s3 : genWordLoop 2 distPM rsPine 3 modelPM 3 ['#', 'p', 'i', 'n'] =
      genWordLoop 2 distPM rsPine 2 modelPM 4 ['#', 'p', 'i', 'n', 'e'] := by
    rw [genWordLoop]
    norm_num +decide [lastChars, dlookup, modelPM, boostTerm, pyChoices, pickFrom,
      rsPine, dupdate, List.getLastD, TERMINATOR, distPM]
  have s4 : genWordLoop 2 distPM rsPine 2 modelPM 4 ['#', 'p', 'i', 'n', 'e'] =
      genWordLoop 2 distPM rsPine 1 modelPM 5 ['#', 'p', 'i', 'n', 'e', '$'] := by
    rw [genWordLoop]
    norm_num +decide [lastChars, dlookup, modelPM, boostTerm, pyChoices, pickFrom,
      rsPine, dupdate, List.getLastD, TERMINATOR, distPM]
  have s5 : genWordLoop 2 distPM rsPine 1 modelPM 5 ['#', 'p', 'i', 'n', 'e', '$'] =
      .ok (['#', 'p', 'i', 'n', 'e', '$'], modelPM, 5) := by
    rw [genWordLoop]
    norm_num +decide [List.getLastD, TERMINATOR]
  rw [generate_word]
  rw [show [INITIATOR] = ['#'] from rfl]
  rw [s0, s1, s2, s3, s4, s5]
  simp only
  rw [show pyStrip ['#', 'p', 'i', 'n', 'e', '$'] [INITIATOR, TERMINATOR] = pineW
    from by decide]

/-- The full pipeline on the `pmText` corpus, asked for one word, accepts
"pine" on the first attempt. -/
theorem genWords_pm : generate_words asciiUni 2 (some pmText) 1 rsPine 6 1 =
    .ok (some [pineW]) := by
  rw [generate_words]
  rw [show parse_words asciiUni 2 (some pmText) = some [pintW, mineW] from by decide]
  simp only
  rw [lenDist_pm]
  simp only
  rw [model_pm_eval]
  rw [genOuter]
  rw [if_pos (by decide : ([] : List (List Char)).length < 1)]
  rw [genRun_pm]
  simp only
  rw [if_neg (by decide :
    ¬(pineW ∈ [pintW, mineW] ∨ pineW ∈ ([] : List (List Char))))]
  rw [genOuter]
  norm_num

/-- C1: whenever `generate_words` returns a list, it has exactly `count`
elements, none of them is in the parsed word set, no two are equal (and
for count 0 the list is empty); moreover the acceptance loop returns the
empty accumulator for a zero target without performing any sampling
iteration (zero fuel suffices). -/
theorem C1_generate_words_output (u : Uni) (n : ℕ) (text : Option (List Char))
    (count : ℕ) (rs : ℕ → ℝ) (fIn fOut : ℕ) (l : List (List Char)) :
    (generate_words u n text count rs fIn fOut = .ok (some l) →
      l.length = count ∧ l.Nodup ∧
        (∀ wl, parse_words u n text = some wl → ∀ w ∈ l, w ∉ wl) ∧
        (count = 0 → l = [])) ∧
    (∀ (dist : List ℝ) (wl : List (List Char)) (m : Model) (ridx : ℕ),
      genOuter n dist wl rs fIn 0 m ridx 0 [] = .ok ([], m)) := by
  constructor
  · intro h
    rw [generate_words] at h
    cases hp : parse_words u n text with
    | none =>
        rw [hp] at h
        simp only at h
        injection h with h2
        cases h2
    | some wl =>
        rw [hp] at h
        simp only at h
        cases hd : length_distribution wl with
        | none =>
            rw [hd] at h
            cases h
        | some dist =>
            rw [hd] at h
            simp only at h
            cases hg : genOuter n dist wl rs fIn fOut (build_model n wl) 0 count []
              with
            | error e =>
                rw [hg] at h
                cases h
            | ok res =>
                obtain ⟨l2, m2⟩ := res
                rw [hg] at h
                simp only at h
                injection h with h2
                injection h2 with h3
                subst h3
                have hinv := genOuter_invariant n dist wl rs fIn count fOut
                  (build_model n wl) 0 [] (by simp) List.nodup_nil (by simp) l2 m2 hg
                refine ⟨hinv.1, hinv.2.1, ?_, ?_⟩
                · intro wl2 hwl2
                  injection hwl2 with h4
                  subst h4
                  exact hinv.2.2
                · intro hc0
                  rw [← List.length_eq_zero]
                  rw [hinv.1, hc0]
  · intro dist wl m ridx
    rw [genOuter]
    rw [if_neg (by simp)]

/-- C1 witness: the pipeline on "pint mine" returns exactly the one novel
word "pine", which satisfies every guarantee of the claim. -/
theorem C1_witness :
    generate_words asciiUni 2 (some pmText) 1 rsPine 6 1 = .ok (some [pineW]) ∧
    ([pineW].length = 1 ∧ [pineW].Nodup ∧
      (∀ wl, parse_words asciiUni 2 (some pmText) = some wl →
        ∀ w ∈ [pineW], w ∉ wl) ∧
      (1 = 0 → [pineW] = [])) :=
  ⟨genWords_pm,
    (C1_generate_words_output asciiUni 2 (some pmText) 1 rsPine 6 1 [pineW]).1
      genWords_pm⟩

/-- C2: when the model fed to `generate_word` was built by `build_model`
from the same non-empty word list (of non-empty words) and the same
positive context length, the missing-context failure branch is
unreachable: every context looked up during the loop is present. -/
theorem C2_no_missing_context (n : ℕ) (wl : List (List Char)) (dist : List ℝ)
    (rs : ℕ → ℝ) (fuel ridx : ℕ) (hn : 1 ≤ n) (hne : wl ≠ [])
    (_hwords : ∀ w ∈ wl, w ≠ []) :
    generate_word n dist rs fuel (build_model n wl) ridx ≠
      .error .missingCtx := by
  obtain ⟨w0, hw0⟩ := List.exists_mem_of_ne_nil wl hne
  have hloop := genWordLoop_no_missing n hn wl dist rs fuel ridx [INITIATOR]
    (Or.inl (reach_init n wl w0 hw0))
  rw [generate_word]
  cases hg : genWordLoop n dist rs fuel (build_model n wl) ridx [INITIATOR] with
  | ok res =>
      obtain ⟨a, b, c⟩ := res
      simp
  | error e =>
      rw [hg] at hloop
      simp only
      intro h
      injection h with h2
      exact hloop (by rw [h2])

/-- C2 witness: at context length 2 over the word list `["pint"]` the
sampler never reports a missing context. -/
theorem C2_witness :
    ((1 : ℕ) ≤ 2 ∧ [pintW] ≠ [] ∧ ∀ w ∈ [pintW], w ≠ []) ∧
    generate_word 2 [] rsZero 0 (build_model 2 [pintW]) 0 ≠
      .error .missingCtx :=
  ⟨⟨by decide, by decide, by decide⟩,
    C2_no_missing_context 2 [pintW] [] rsZero 0 0 (by decide) (by decide)
      (by decide)⟩

/-- C3 counterexample: on "cat cats dog dogs" with context length 2 the
word set is as the claim says, but the model maps context "#c" to
`{"a": 2}` (both "cat" and "cats" contribute an occurrence), not to the
claimed `{"a": 1}`. -/
theorem C3_counterexample :
    parse_words asciiUni 2 (some catText) =
      some [['c','a','t'], ['c','a','t','s'], ['d','o','g'], ['d','o','g','s']] ∧
    dlookup (build_model 2
        [['c','a','t'], ['c','a','t','s'], ['d','o','g'], ['d','o','g','s']])
      ['#', 'c'] ≠ some [('a', 1)] := by
  constructor
  · decide
  · decide

/-- C3 amended: the word set is `{"cat","cats","dog","dogs"}`, context
"#c" maps to `{"a": 2}` and context "ca" maps to `{"t": 2}`. -/
theorem C3_example_amended :
    parse_words asciiUni 2 (some catText) =
      some [['c','a','t'], ['c','a','t','s'], ['d','o','g'], ['d','o','g','s']] ∧
    dlookup (build_model 2
        [['c','a','t'], ['c','a','t','s'], ['d','o','g'], ['d','o','g','s']])
      ['#', 'c'] = some [('a', 2)] ∧
    dlookup (build_model 2
        [['c','a','t'], ['c','a','t','s'], ['d','o','g'], ['d','o','g','s']])
      ['c', 'a'] = some [('t', 2)] := by
  refine ⟨by decide, by decide, by decide⟩

/-- C4 counterexample: on the empty input string `parse_words` does not
return the null failure signal (it returns an empty word list), and
`generate_words` then crashes inside `length_distribution` (`max()` of an
empty sequence) instead of returning `None`. -/
theorem C4_counterexample :
    parse_words asciiUni 2 (some []) ≠ none ∧
    generate_words asciiUni 2 (some []) 5 rsZero 6 3 = .error .emptyMax := by
  constructor
  · rw [show parse_words asciiUni 2 (some []) = some [] from by decide]
    simp
  · rw [generate_words]
    rw [show parse_words asciiUni 2 (some []) = some [] from by decide]
    simp only
    rw [show length_distribution [] = none from by simp [length_distribution]]

/-- C4 amended: only a `None` text yields the `NoInputError`-style null
result (from both `parse_words` and `generate_words`); the empty string
instead parses to an empty word list, after which `generate_words`
raises an uncaught error in `length_distribution` rather than returning
the null signal. -/
theorem C4_amended :
    parse_words asciiUni 2 none = none ∧
    generate_words asciiUni 2 none 5 rsZero 6 3 = .ok none ∧
    parse_words asciiUni 2 (some []) = some [] ∧
    generate_words asciiUni 2 (some []) 5 rsZero 6 3 = .error .emptyMax := by
  refine ⟨rfl, rfl, by decide, ?_⟩
  rw [generate_words]
  rw [show parse_words asciiUni 2 (some []) = some [] from by decide]
  simp only
  rw [show length_distribution [] = none from by simp [length_distribution]]

/-- C5: in the boost step of the sampling loop, when the terminator is a
candidate its weight becomes its model count times the distribution value
at the in-progress length, the index clamping to the final entry once the
length leaves the distribution's range; all other candidates keep their
(cast) model counts. -/
theorem C5_terminator_boost (w : List (Char × ℕ)) (dist : List ℝ) (L k : ℕ)
    (hdist : dist ≠ []) (hterm : dlookup w TERMINATOR = some k) :
    ∃ bw, boostTerm w dist L = some bw ∧
      dlookup bw TERMINATOR =
        some ((k : ℝ) * dist.getD (min L (dist.length - 1)) 0) ∧
      ∀ c, c ≠ TERMINATOR →
        dlookup bw c = (dlookup w c).map (fun v => (v : ℝ)) := by
  have hwr : dlookup (w.map (fun p => (p.1, (p.2 : ℝ)))) TERMINATOR =
      some (k : ℝ) := by
    rw [dlookup_map_val]
    rw [hterm]
    rfl
  by_cases hL : L < dist.length
  · refine ⟨dupdate (w.map (fun p => (p.1, (p.2 : ℝ)))) TERMINATOR
      ((k : ℝ) * dist.getD L 0), ?_, ?_, ?_⟩
    · rw [boostTerm]
      simp only [hwr, if_pos hL]
    · rw [dlookup_dupdate, if_pos rfl]
      rw [show min L (dist.length - 1) = L from by omega]
    · intro c hc
      rw [dlookup_dupdate, if_neg hc, dlookup_map_val]
      cases dlookup w c <;> rfl
  · obtain ⟨x, hx⟩ : ∃ x, dist.getLast? = some x := by
      cases hgl : dist.getLast? with
      | none =>
          rw [List.getLast?_eq_none_iff] at hgl
          exact absurd hgl hdist
      | some x => exact ⟨x, rfl⟩
    refine ⟨dupdate (w.map (fun p => (p.1, (p.2 : ℝ)))) TERMINATOR
      ((k : ℝ) * x), ?_, ?_, ?_⟩
    · rw [boostTerm]
      simp only [hwr, if_neg hL, hx]
    · rw [dlookup_dupdate, if_pos rfl]
      rw [show min L (dist.length - 1) = dist.length - 1 from by omega]
      rw [getLastD_of_getLast? dist x hx]
    · intro c hc
      rw [dlookup_dupdate, if_neg hc, dlookup_map_val]
      cases dlookup w c <;> rfl

/-- C5 witness: a weights table `{'$': 2}` with distribution `[0, 1]` at
in-progress length 1 boosts the terminator to `2 * 1`. -/
theorem C5_witness :
    (([0, (1 : ℝ)] ≠ ([] : List ℝ)) ∧
      dlookup ([('$', 2)] : List (Char × ℕ)) TERMINATOR = some 2) ∧
    ∃ bw, boostTerm ([('$', 2)] : List (Char × ℕ)) [0, (1 : ℝ)] 1 = some bw ∧
      dlookup bw TERMINATOR =
        some (((2 : ℕ) : ℝ) *
          List.getD [0, (1 : ℝ)] (min 1 ([0, (1 : ℝ)].length - 1)) 0) ∧
      ∀ c, c ≠ TERMINATOR →
        dlookup bw c =
          (dlookup ([('$', 2)] : List (Char × ℕ)) c).map (fun v => (v : ℝ)) := by
  refine ⟨⟨by simp, by decide⟩, ?_⟩
  exact C5_terminator_boost [('$', 2)] [0, (1 : ℝ)] 1 2 (by simp) (by decide)

/-- C6: every word returned by `parse_words` consists only of letters
(category starting with `L`), combining marks (`Mn`), apostrophes, or
hyphens, is strictly longer than the context length, and the returned
collection contains no duplicates. -/
theorem C6_parse_words_wellformed (u : Uni) (n : ℕ) (text : Option (List Char))
    (wl : List (List Char)) (h : parse_words u n text = some wl) :
    wl.Nodup ∧ ∀ w ∈ wl, n < w.length ∧
      ∀ c ∈ w, (∃ rest, u.cat c = 'L' :: rest) ∨ u.cat c = ['M', 'n'] ∨
        c = '\'' ∨ c = '-' := by
  have hs := parse_words_sound u n text wl h
  refine ⟨hs.1, ?_⟩
  intro w hw
  refine ⟨(hs.2 w hw).1, ?_⟩
  intro c hc
  have hk := (hs.2 w hw).2 c hc
  rw [keepChar] at hk
  simp only [Bool.or_eq_true, beq_iff_eq] at hk
  rcases hk with ((h1 | h2) | h3) | h4
  · cases hcat : u.cat c with
    | nil =>
        rw [hcat] at h1
        simp at h1
    | cons x rest =>
        rw [hcat] at h1
        simp only [decide_eq_true_eq] at h1
        subst h1
        exact Or.inl ⟨rest, rfl⟩
  · exact Or.inr (Or.inl h2)
  · exact Or.inr (Or.inr (Or.inl h3))
  · exact Or.inr (Or.inr (Or.inr h4))

/-- C6 witness: the word set of "pint mine" is duplicate-free, both words
exceed the context length, and all characters are lowercase letters. -/
theorem C6_witness :
    parse_words asciiUni 2 (some pmText) = some [pintW, mineW] ∧
    ([pintW, mineW].Nodup ∧ ∀ w ∈ [pintW, mineW], 2 < w.length ∧
      ∀ c ∈ w, (∃ rest, asciiUni.cat c = 'L' :: rest) ∨
        asciiUni.cat c = ['M', 'n'] ∨ c = '\'' ∨ c = '-') :=
  ⟨by decide,
    C6_parse_words_wellformed asciiUni 2 (some pmText) [pintW, mineW] (by decide)⟩

/-- C7: for a non-empty word list `length_distribution` succeeds, its
value at index 0 is 0, and the sequence is monotonically non-decreasing:
whenever `i ≤ j` and `j` is a valid index, the value at `i` is at most
the value at `j`. -/
theorem C7_length_distribution_monotone (wl : List (List Char))
    (hne : wl ≠ []) :
    ∃ d, length_distribution wl = some d ∧ d.getD 0 0 = 0 ∧
      ∀ i j, i ≤ j → j < d.length → d.getD i 0 ≤ d.getD j 0 := by
  have hh := histo_ne_nil wl hne
  have hempty : (wl.foldl (fun d w => dbump d w.length) []).isEmpty = false := by
    cases h2 : wl.foldl (fun d w => dbump d w.length) [] with
    | nil => exact absurd h2 hh
    | cons p rest => rfl
  refine ⟨cumulList (wl.foldl (fun d w => dbump d w.length) [])
      (((wl.foldl (fun d w => dbump d w.length) []).map Prod.snd).sum)
      (maxKey (wl.foldl (fun d w => dbump d w.length) [])), ?_, ?_, ?_⟩
  · rw [length_distribution]
    simp only [hempty, Bool.false_eq_true, if_false]
  · exact cumulList_getD_zero _ _ _
  · intro i j hij hj
    rw [cumulList_length] at hj
    exact cumulList_mono _ _ _ i j hij (by omega)

/-- C7 witness: the distribution of the single word "pint" starts at 0
and is non-decreasing. -/
theorem C7_witness :
    ([pintW] ≠ ([] : List (List Char))) ∧
    ∃ d, length_distribution [pintW] = some d ∧ d.getD 0 0 = 0 ∧
      ∀ i j, i ≤ j → j < d.length → d.getD i 0 ≤ d.getD j 0 :=
  ⟨by decide, C7_length_distribution_monotone [pintW] (by decide)⟩

/-- C8: `generate_word` never mutates the chain model: the model left
behind by any call (the threaded model of the embedding, in which an
uncopied boost would have been written back) is the model passed in; the
terminator boost only touches a local copy of the weights. -/
theorem C8_model_unchanged (n : ℕ) (dist : List ℝ) (rs : ℕ → ℝ) (fuel : ℕ)
    (m : Model) (ridx : ℕ) :
    modelAfter (generate_word n dist rs fuel m ridx) m = m := by
  rw [generate_word]
  cases hg : genWordLoop n dist rs fuel m ridx [INITIATOR] with
  | ok res =>
      obtain ⟨w, m2, r2⟩ := res
      simp only [modelAfter]
      exact genWordLoop_model n dist rs fuel m ridx [INITIATOR] w m2 r2 hg
  | error e => simp [modelAfter]

/-- C9: the whole pipeline is a deterministic function of the input text,
the context length, the requested count, the random source (and the
embedding's fuel): equal inputs give equal model tables and equal
generated sequences. -/
theorem C9_deterministic (u1 u2 : Uni) (n1 n2 : ℕ) (t1 t2 : Option (List Char))
    (c1 c2 : ℕ) (rs1 rs2 : ℕ → ℝ) (fIn1 fIn2 fOut1 fOut2 : ℕ)
    (hu : u1 = u2) (hn : n1 = n2) (ht : t1 = t2) (hc : c1 = c2)
    (hrs : rs1 = rs2) (hf1 : fIn1 = fIn2) (hf2 : fOut1 = fOut2) :
    (parse_words u1 n1 t1).map (build_model n1) =
      (parse_words u2 n2 t2).map (build_model n2) ∧
    generate_words u1 n1 t1 c1 rs1 fIn1 fOut1 =
      generate_words u2 n2 t2 c2 rs2 fIn2 fOut2 := by
  subst hu hn ht hc hrs hf1 hf2
  exact ⟨rfl, rfl⟩

/-- C9 witness: two identical runs over "pint mine" agree on the model
table and on the generated sequence. -/
theorem C9_witness :
    (parse_words asciiUni 2 (some pmText)).map (build_model 2) =
      (parse_words asciiUni 2 (some pmText)).map (build_model 2) ∧
    generate_words asciiUni 2 (some pmText) 1 rsPine 6 1 =
      generate_words asciiUni 2 (some pmText) 1 rsPine 6 1 :=
  C9_deterministic asciiUni asciiUni 2 2 (some pmText) (some pmText) 1 1
    rsPine rsPine 6 6 1 1 rfl rfl rfl rfl rfl rfl rfl

/-- C10: a word returned by `generate_word` over a model built from a
`parse_words` word list (with a classifier that discards both sentinels)
is non-empty and contains neither the initiator nor the terminator: the
loop stops at the first terminator and the final strip removes exactly
the one leading initiator and the one trailing terminator. -/
theorem C10_generated_word_clean (u : Uni) (n : ℕ) (text : Option (List Char))
    (wl : List (List Char)) (dist : List ℝ) (rs : ℕ → ℝ) (fuel ridx : ℕ)
    (w : List Char) (m2 : Model) (r2 : ℕ)
    (hn : 1 ≤ n) (hparse : parse_words u n text = some wl)
    (hI : keepChar u.cat INITIATOR = false)
    (hT : keepChar u.cat TERMINATOR = false)
    (hok : generate_word n dist rs fuel (build_model n wl) ridx =
      .ok (w, m2, r2)) :
    w ≠ [] ∧ INITIATOR ∉ w ∧ TERMINATOR ∉ w := by
  rw [generate_word] at hok
  cases hg : genWordLoop n dist rs fuel (build_model n wl) ridx [INITIATOR] with
  | error e =>
      rw [hg] at hok
      cases hok
  | ok res =>
      obtain ⟨wr, m3, r3⟩ := res
      rw [hg] at hok
      simp only at hok
      injection hok with h2
      injection h2 with h3 h4
      have hgood := genWordLoop_good u n hn text wl hparse hI hT dist rs fuel
        ridx [INITIATOR] (Or.inl ⟨[], rfl, by intro c hc; cases hc⟩) wr m3 r3 hg
      obtain ⟨mid, hne, hmid, rfl⟩ := hgood
      rw [pyStrip_sentinel mid hne hmid] at h3
      subst h3
      refine ⟨hne, ?_, ?_⟩
      · intro hI2
        exact (hmid _ hI2).1 rfl
      · intro hT2
        exact (hmid _ hT2).2 rfl

/-- C10 witness: the generated word "pine" is non-empty and free of both
sentinels. -/
theorem C10_witness :
    ((1 : ℕ) ≤ 2 ∧
      parse_words asciiUni 2 (some pmText) = some [pintW, mineW] ∧
      keepChar asciiUni.cat INITIATOR = false ∧
      keepChar asciiUni.cat TERMINATOR = false ∧
      generate_word 2 distPM rsPine 6 (build_model 2 [pintW, mineW]) 0 =
        .ok (pineW, modelPM, 5)) ∧
    (pineW ≠ [] ∧ INITIATOR ∉ pineW ∧ TERMINATOR ∉ pineW) := by
  have hrun : generate_word 2 distPM rsPine 6 (build_model 2 [pintW, mineW]) 0 =
      .ok (pineW, modelPM, 5) := by
    rw [model_pm_eval]
    exact genRun_pm
  refine ⟨⟨by decide, by decide, by decide, by decide, hrun⟩, ?_⟩
  exact C10_generated_word_clean asciiUni 2 (some pmText) [pintW, mineW] distPM
    rsPine 6 0 pineW modelPM 5 (by decide) (by decide) (by decide) (by decide)
    hrun

end WordGen
